import Mathlib

/-!
Formal model of the repository-scoring CLI.

The development shallowly embeds the two source files of the project:
the bus-factor module (`calculateBusFactor`, `parseGithubUrl`, the batch
loop) and the metric pipeline (`calculateMetricsForRepo`, `fetchRepoLicense`,
`parseUrlFile`).  JavaScript numbers are modelled as `ℚ` (all arithmetic the
code performs on scores and thresholds is exact there), contribution counts
as `ℕ`, fallible asynchronous calls as `Except String`.  The JS comparison
`NaN >= threshold`, which arises when the total contribution count is zero,
is always false; this is modelled by an explicit `total ≠ 0` conjunct in the
loop condition.
-/

namespace CLIModel

/-- A contributor record as returned by the contributors endpoint: a login
plus a non-negative integer contribution count. -/
structure Contributor where
  login : String
  contributions : Nat
deriving DecidableEq, Repr

/-- Mirrors `contributors.reduce((acc, contributor) => acc + contributor.contributions, 0)`. -/
def totalCommits (contributors : List Contributor) : Nat :=
  contributors.foldl (fun acc contributor => acc + contributor.contributions) 0

/-- Mirrors `contributors.sort((a, b) => b.contributions - a.contributions)`:
a stable sort, descending by contribution count (ECMAScript sorts are stable,
and any two stable sorts for the same preorder produce the same list). -/
def sortedContributors (contributors : List Contributor) : List Contributor :=
  contributors.mergeSort (fun a b => b.contributions ≤ a.contributions)

/-- The `break` condition of the bus-factor loop, for a given running commit
sum: `(commitSum / totalCommits) * 100 >= threshold`.  When `total = 0` the
JS quotient is `NaN` and the comparison is false, hence the first conjunct. -/
def busFactorBreaks (total : Nat) (threshold : ℚ) (commitSum : Nat) : Prop :=
  total ≠ 0 ∧ threshold ≤ (commitSum : ℚ) / (total : ℚ) * 100

instance (total : Nat) (threshold : ℚ) (commitSum : Nat) :
    Decidable (busFactorBreaks total threshold commitSum) := by
  unfold busFactorBreaks
  infer_instance

/-- The `for` loop of `calculateBusFactor`: walk the sorted contributor list,
adding each contribution count to `commitSum` and incrementing `busFactor`,
stopping as soon as the cumulative percentage reaches the threshold. -/
def busFactorLoop (total : Nat) (threshold : ℚ) :
    List Contributor → Nat → Nat → Nat
  | [], _, busFactor => busFactor
  | contributor :: rest, commitSum, busFactor =>
    let commitSum := commitSum + contributor.contributions
    let busFactor := busFactor + 1
    if busFactorBreaks total threshold commitSum then
      busFactor
    else
      busFactorLoop total threshold rest commitSum busFactor

/-- Mirrors `calculateBusFactor(contributors, threshold)` from the bus-factor
module: total the commits, sort descending, and run the accumulation loop
starting from `commitSum = 0`, `busFactor = 0`. -/
def calculateBusFactor (contributors : List Contributor) (threshold : ℚ) : Nat :=
  busFactorLoop (totalCommits contributors) threshold (sortedContributors contributors) 0 0

/-- JS `Array.prototype.sort` mutates its receiver, so `calculateBusFactor`
reorders the caller's array as a side effect.  This definition is the state of
the caller's `contributors` argument after the call returns. -/
def calculateBusFactorCallerState (contributors : List Contributor) : List Contributor :=
  sortedContributors contributors

/-- Contribution count of a single contributor, as a function (used to state
sum and permutation lemmas). -/
def contribOf (c : Contributor) : Nat := c.contributions

/-- Sum of the contribution counts of the first `k` entries of a list. -/
def prefixContrib (l : List Contributor) (k : Nat) : Nat :=
  ((l.take k).map contribOf).sum

/-- Cumulative contribution share, in percent, of the top `k` contributors of
the descending-sorted list. -/
def cumulativeSharePct (contributors : List Contributor) (k : Nat) : ℚ :=
  (prefixContrib (sortedContributors contributors) k : ℚ) /
    (totalCommits contributors : ℚ) * 100

lemma totalCommits_eq_sum (cs : List Contributor) :
    totalCommits cs = (cs.map contribOf).sum := by
  have h : ∀ (l : List Contributor) (a : Nat),
      l.foldl (fun acc contributor => acc + contributor.contributions) a =
        a + (l.map contribOf).sum := by
    intro l
    induction l with
    | nil => intro a; simp
    | cons c rest ih =>
      intro a
      simp only [List.foldl_cons, List.map_cons, List.sum_cons, ih, contribOf]
      omega
  simpa using h cs 0

lemma busFactorLoop_shift (total : Nat) (t : ℚ) :
    ∀ (l : List Contributor) (s b : Nat),
      busFactorLoop total t l s b = b + busFactorLoop total t l s 0 := by
  intro l
  induction l with
  | nil => intro s b; simp [busFactorLoop]
  | cons c rest ih =>
    intro s b
    by_cases h : busFactorBreaks total t (s + c.contributions)
    · simp [busFactorLoop, h]
    · simp only [busFactorLoop, if_neg h]
      rw [ih (s + c.contributions) (b + 1), ih (s + c.contributions) (0 + 1)]
      omega

lemma busFactorLoop_le_length (total : Nat) (t : ℚ) :
    ∀ (l : List Contributor) (s : Nat), busFactorLoop total t l s 0 ≤ l.length := by
  intro l
  induction l with
  | nil => intro s; simp [busFactorLoop]
  | cons c rest ih =>
    intro s
    by_cases h : busFactorBreaks total t (s + c.contributions)
    · simp [busFactorLoop, h]
    · simp only [busFactorLoop, if_neg h]
      rw [busFactorLoop_shift]
      have := ih (s + c.contributions)
      simp only [List.length_cons]
      omega

lemma prefixContrib_cons (c : Contributor) (rest : List Contributor) (j : Nat) :
    prefixContrib (c :: rest) (j + 1) = c.contributions + prefixContrib rest j := by
  simp [prefixContrib, contribOf]

/-- Full characterization of the bus-factor loop started at `busFactor = 0`:
the result is at most the list length, no strictly earlier prefix triggers the
break condition, and either the result itself triggers it, or no prefix does
and the whole list was consumed. -/
lemma busFactorLoop_char (total : Nat) (t : ℚ) :
    ∀ (l : List Contributor) (s : Nat),
      busFactorLoop total t l s 0 ≤ l.length ∧
      (∀ j, 1 ≤ j → j < busFactorLoop total t l s 0 →
        ¬ busFactorBreaks total t (s + prefixContrib l j)) ∧
      ((1 ≤ busFactorLoop total t l s 0 ∧
          busFactorBreaks total t (s + prefixContrib l (busFactorLoop total t l s 0))) ∨
        (busFactorLoop total t l s 0 = l.length ∧
          ∀ j, 1 ≤ j → j ≤ l.length → ¬ busFactorBreaks total t (s + prefixContrib l j))) := by
  intro l
  induction l with
  | nil =>
    intro s
    refine ⟨by simp [busFactorLoop], ?_, Or.inr ⟨by simp [busFactorLoop], ?_⟩⟩
    · intro j h1 h2
      simp only [busFactorLoop] at h2
      omega
    · intro j h1 h2
      simp only [List.length_nil] at h2
      omega
  | cons c rest ih =>
    intro s
    by_cases h : busFactorBreaks total t (s + c.contributions)
    · have hval : busFactorLoop total t (c :: rest) s 0 = 1 := by
        simp [busFactorLoop, h]
      refine ⟨by simp [hval], ?_, Or.inl ⟨by omega, ?_⟩⟩
      · intro j h1 h2
        rw [hval] at h2
        omega
      · rw [hval, prefixContrib_cons]
        simpa using h
    · have hval : busFactorLoop total t (c :: rest) s 0 =
          1 + busFactorLoop total t rest (s + c.contributions) 0 := by
        simp only [busFactorLoop, if_neg h]
        rw [busFactorLoop_shift]
      obtain ⟨ih1, ih2, ih3⟩ := ih (s + c.contributions)
      refine ⟨by simp only [hval, List.length_cons]; omega, ?_, ?_⟩
      · intro j h1 h2
        obtain ⟨k, rfl⟩ : ∃ k, j = k + 1 := ⟨j - 1, by omega⟩
        rw [prefixContrib_cons, ← Nat.add_assoc]
        rcases Nat.eq_zero_or_pos k with hk | hk
        · subst hk
          simpa [prefixContrib] using h
        · exact ih2 k (by omega) (by omega)
      · rcases ih3 with ⟨hm1, hmB⟩ | ⟨hlen, hnone⟩
        · refine Or.inl ⟨by omega, ?_⟩
          have : busFactorLoop total t (c :: rest) s 0 =
              (busFactorLoop total t rest (s + c.contributions) 0) + 1 := by omega
          rw [this, prefixContrib_cons, ← Nat.add_assoc]
          exact hmB
        · refine Or.inr ⟨by simp only [hval, List.length_cons]; omega, ?_⟩
          intro j h1 h2
          obtain ⟨k, rfl⟩ : ∃ k, j = k + 1 := ⟨j - 1, by omega⟩
          rw [prefixContrib_cons, ← Nat.add_assoc]
          rcases Nat.eq_zero_or_pos k with hk | hk
          · subst hk
            simpa [prefixContrib] using h
          · exact hnone k (by omega) (by simp at h2; omega)

lemma busFactorLoop_total_zero (t : ℚ) :
    ∀ (l : List Contributor) (s b : Nat), busFactorLoop 0 t l s b = b + l.length := by
  intro l
  induction l with
  | nil => intro s b; simp [busFactorLoop]
  | cons c rest ih =>
    intro s b
    have h : ¬ busFactorBreaks 0 t (s + c.contributions) := by
      intro hc
      exact hc.1 rfl
    simp only [busFactorLoop, if_neg h, List.length_cons]
    rw [ih]
    omega

lemma busFactorLoop_mono (total : Nat) (t1 t2 : ℚ) (h12 : t1 ≤ t2) :
    ∀ (l : List Contributor) (s b : Nat),
      busFactorLoop total t1 l s b ≤ busFactorLoop total t2 l s b := by
  intro l
  induction l with
  | nil => intro s b; simp [busFactorLoop]
  | cons c rest ih =>
    intro s b
    have himp : busFactorBreaks total t2 (s + c.contributions) →
        busFactorBreaks total t1 (s + c.contributions) := by
      rintro ⟨hne, hle⟩
      exact ⟨hne, le_trans h12 hle⟩
    by_cases h2 : busFactorBreaks total t2 (s + c.contributions)
    · simp [busFactorLoop, h2, himp h2]
    · by_cases h1 : busFactorBreaks total t1 (s + c.contributions)
      · simp only [busFactorLoop, if_pos h1, if_neg h2]
        rw [busFactorLoop_shift]
        omega
      · simp only [busFactorLoop, if_neg h1, if_neg h2]
        exact ih (s + c.contributions) (b + 1)

lemma sortedContributors_pairwise (cs : List Contributor) :
    List.Pairwise (fun a b => b.contributions ≤ a.contributions) (sortedContributors cs) := by
  have htrans : ∀ a b c : Contributor,
      (decide (b.contributions ≤ a.contributions)) = true →
      (decide (c.contributions ≤ b.contributions)) = true →
      (decide (c.contributions ≤ a.contributions)) = true := by
    intro a b c hab hbc
    simp only [decide_eq_true_eq] at hab hbc ⊢
    omega
  have htotal : ∀ a b : Contributor,
      ((decide (b.contributions ≤ a.contributions)) ||
        (decide (a.contributions ≤ b.contributions))) = true := by
    intro a b
    simp only [Bool.or_eq_true, decide_eq_true_eq]
    omega
  have h := @List.sorted_mergeSort Contributor
    (fun a b => decide (b.contributions ≤ a.contributions)) htrans htotal cs
  exact List.Pairwise.imp (fun hab => of_decide_eq_true hab) h

lemma sortedContributors_perm (cs : List Contributor) :
    (sortedContributors cs).Perm cs :=
  List.mergeSort_perm cs _

lemma prefixContrib_full (l : List Contributor) :
    prefixContrib l l.length = (l.map contribOf).sum := by
  simp [prefixContrib]

lemma prefixContrib_sorted_full (cs : List Contributor) :
    prefixContrib (sortedContributors cs) ((sortedContributors cs).length) =
      totalCommits cs := by
  rw [prefixContrib_full, totalCommits_eq_sum]
  exact ((sortedContributors_perm cs).map contribOf).sum_eq

/-- C2: for a contributor list with positive total contributions and a
threshold at most 100, `calculateBusFactor` returns exactly the number of top
contributors (descending by contribution count) whose cumulative contribution
share first reaches or exceeds the threshold: the sorted order is descending,
a permutation of the input, and the returned count is the least `k ≥ 1` whose
cumulative share reaches the threshold. -/
theorem busFactor_first_reach (cs : List Contributor) (t : ℚ)
    (htot : 0 < totalCommits cs) (ht : t ≤ 100) :
    List.Pairwise (fun a b => b.contributions ≤ a.contributions) (sortedContributors cs) ∧
    (sortedContributors cs).Perm cs ∧
    1 ≤ calculateBusFactor cs t ∧
    calculateBusFactor cs t ≤ cs.length ∧
    t ≤ cumulativeSharePct cs (calculateBusFactor cs t) ∧
    (∀ j, 1 ≤ j → j < calculateBusFactor cs t → cumulativeSharePct cs j < t) := by
  have hne : totalCommits cs ≠ 0 := Nat.pos_iff_ne_zero.mp htot
  have hqne : (totalCommits cs : ℚ) ≠ 0 := Nat.cast_ne_zero.mpr hne
  have hlen : (sortedContributors cs).length = cs.length :=
    (sortedContributors_perm cs).length_eq
  have hiff : ∀ j, busFactorBreaks (totalCommits cs) t
      (0 + prefixContrib (sortedContributors cs) j) ↔ t ≤ cumulativeSharePct cs j := by
    intro j
    unfold busFactorBreaks cumulativeSharePct
    rw [Nat.zero_add]
    constructor
    · rintro ⟨_, hle⟩
      exact hle
    · intro hle
      exact ⟨hne, hle⟩
  obtain ⟨hle, hmin, hbr⟩ :=
    busFactorLoop_char (totalCommits cs) t (sortedContributors cs) 0
  have hcalc : busFactorLoop (totalCommits cs) t (sortedContributors cs) 0 0 =
      calculateBusFactor cs t := rfl
  rw [hcalc] at hle hmin hbr
  have hcs : cs.length ≠ 0 := by
    intro h0
    rw [List.length_eq_zero] at h0
    subst h0
    simp [totalCommits] at htot
  rcases hbr with ⟨h1, hB⟩ | ⟨_, hnone⟩
  · refine ⟨sortedContributors_pairwise cs, sortedContributors_perm cs, h1,
      by omega, (hiff _).mp hB, ?_⟩
    intro j hj1 hj2
    have := hmin j hj1 hj2
    rw [hiff] at this
    exact lt_of_not_le this
  · exfalso
    have hfull := hnone ((sortedContributors cs).length) (by omega) (le_refl _)
    apply hfull
    rw [hiff, cumulativeSharePct, prefixContrib_sorted_full, div_self hqne, one_mul]
    exact ht

/-- Witness for C2 at the singleton list holding all commits: the bus factor
is exactly 1 at threshold 50. -/
theorem busFactor_first_reach_witness :
    0 < totalCommits [⟨"a", 5⟩] ∧ (50 : ℚ) ≤ 100 ∧
    calculateBusFactor [⟨"a", 5⟩] (50 : ℚ) = 1 := by
  refine ⟨by decide, by norm_num, ?_⟩
  have h := busFactor_first_reach [⟨"a", 5⟩] (50 : ℚ) (by decide) (by norm_num)
  have h1 := h.2.2.1
  have h2 := h.2.2.2.1
  simp only [List.length_cons, List.length_nil] at h2
  omega

/-- C4: when the total contribution count is zero the loop condition (a NaN
comparison in JS) never fires, so `calculateBusFactor` returns the list length
 — a defined value, with no exception — and in particular 0 for the empty
list. -/
theorem busFactor_zero_total (cs : List Contributor) (t : ℚ)
    (h : totalCommits cs = 0) :
    calculateBusFactor cs t = cs.length ∧
    calculateBusFactor ([] : List Contributor) t = 0 := by
  constructor
  · unfold calculateBusFactor
    rw [h, busFactorLoop_total_zero, Nat.zero_add]
    exact (sortedContributors_perm cs).length_eq
  · simp [calculateBusFactor, sortedContributors, List.mergeSort_nil,
      busFactorLoop, totalCommits]

/-- Witness for C4: a one-element list with zero contributions, and the empty
list. -/
theorem busFactor_zero_total_witness :
    totalCommits [⟨"z", 0⟩] = 0 ∧
    calculateBusFactor [⟨"z", 0⟩] (50 : ℚ) = 1 ∧
    calculateBusFactor ([] : List Contributor) (50 : ℚ) = 0 := by
  have h := busFactor_zero_total [⟨"z", 0⟩] (50 : ℚ) (by decide)
  exact ⟨by decide, by simpa using h.1, h.2⟩

/-- C5: holding the contributor list fixed, the bus factor is monotonically
non-decreasing in the threshold. -/
theorem busFactor_threshold_mono (cs : List Contributor) (t1 t2 : ℚ)
    (h : t1 ≤ t2) :
    calculateBusFactor cs t1 ≤ calculateBusFactor cs t2 :=
  busFactorLoop_mono (totalCommits cs) t1 t2 h (sortedContributors cs) 0 0

/-- Witness for C5 at thresholds 30 ≤ 80. -/
theorem busFactor_threshold_mono_witness :
    (30 : ℚ) ≤ 80 ∧
    calculateBusFactor [⟨"a", 3⟩, ⟨"b", 1⟩] (30 : ℚ) ≤
      calculateBusFactor [⟨"a", 3⟩, ⟨"b", 1⟩] (80 : ℚ) :=
  ⟨by norm_num, busFactor_threshold_mono [⟨"a", 3⟩, ⟨"b", 1⟩] 30 80 (by norm_num)⟩

/-- C10 counterexample: on a list that is already in descending order the
in-place sort leaves the caller's argument exactly as it was, refuting "the
input argument is not left unchanged" as a statement about every call. -/
theorem busFactor_inPlace_counterexample :
    calculateBusFactorCallerState [⟨"a", 2⟩, ⟨"b", 1⟩] = [⟨"a", 2⟩, ⟨"b", 1⟩] := by
  simp [calculateBusFactorCallerState, sortedContributors, List.mergeSort,
    List.merge]

/-- C10 amended: `calculateBusFactor` sorts its input in place — after every
call the caller's list is the stable descending sort of the input (descending
by contribution count and a permutation of the input); it differs from the
input whenever the input was not already in that order, but coincides with it
when the input was already sorted. -/
theorem busFactor_inPlace_sort (cs : List Contributor) :
    calculateBusFactorCallerState cs = sortedContributors cs ∧
    List.Pairwise (fun a b => b.contributions ≤ a.contributions)
      (calculateBusFactorCallerState cs) ∧
    (calculateBusFactorCallerState cs).Perm cs :=
  ⟨rfl, sortedContributors_pairwise cs, sortedContributors_perm cs⟩

/-- The owner/repo pair extracted from a GitHub URL. -/
structure RepoInfo where
  owner : String
  repo : String
deriving DecidableEq, Repr

/-- The literal part of the regex `https:\/\/github\.com\/([^/]+)\/([^/]+)`. -/
def githubLit : List Char := "https://github.com/".data

/-- Attempt to match the regex at the start of `s`.  Each group `[^/]+` is a
greedy nonempty run of non-slash characters; since `/` can never be consumed
by `[^/]`, backtracking into a shorter group cannot succeed, so matching at a
fixed position is deterministic: the literal, then a maximal nonempty run of
non-slash characters, then `/`, then another maximal nonempty run. -/
def matchAt (s : List Char) : Option RepoInfo :=
  if githubLit.isPrefixOf s then
    let rest := s.drop githubLit.length
    let owner := rest.takeWhile (fun c => c ≠ '/')
    if owner = [] then none
    else
      match rest.dropWhile (fun c => c ≠ '/') with
      | '/' :: rest2 =>
        let repo := rest2.takeWhile (fun c => c ≠ '/')
        if repo = [] then none
        else some ⟨String.mk owner, String.mk repo⟩
      | _ => none
  else none

/-- `url.match(re)` with a non-global, non-anchored regex: scan left to right
for the first position where the pattern matches. -/
def findMatch : List Char → Option RepoInfo
  | [] => none
  | c :: cs =>
    match matchAt (c :: cs) with
    | some r => some r
    | none => findMatch cs

/-- Mirrors `parseGithubUrl(url)`: the owner/repo of the first regex match,
or `null` (`none`) when the regex does not match anywhere.  The truthiness
checks `match[1] && match[2]` of the source are subsumed: both groups are
`[^/]+` and hence nonempty whenever a match exists. -/
def parseGithubUrl (url : String) : Option RepoInfo :=
  findMatch url.data

/-- A string contains an occurrence of the pattern: somewhere in it the
literal `https://github.com/` is followed by a nonempty run of non-slash
characters, a `/`, and at least one further non-slash character. -/
def hasGithubPattern (url : String) : Prop :=
  ∃ pre o c post, url.data = pre ++ githubLit ++ o ++ '/' :: c :: post ∧
    o ≠ [] ∧ (∀ x ∈ o, x ≠ '/') ∧ c ≠ '/'

lemma isPrefixOf_iff_exists (l : List Char) :
    ∀ s : List Char, l.isPrefixOf s = true ↔ ∃ t, s = l ++ t := by
  induction l with
  | nil =>
    intro s
    simp [List.isPrefixOf]
  | cons a as ih =>
    intro s
    cases s with
    | nil =>
      simp [List.isPrefixOf]
    | cons b bs =>
      simp only [List.isPrefixOf, Bool.and_eq_true, beq_iff_eq, ih bs,
        List.cons_append, List.cons.injEq]
      constructor
      · rintro ⟨rfl, t, rfl⟩
        exact ⟨t, rfl, rfl⟩
      · rintro ⟨t, rfl, rfl⟩
        exact ⟨rfl, t, rfl⟩

lemma takeWhile_all (p : Char → Bool) :
    ∀ (l : List Char), (∀ c ∈ l, p c = true) → l.takeWhile p = l := by
  intro l
  induction l with
  | nil => intro _; rfl
  | cons c cs ih =>
    intro h
    have hc : p c = true := h c (List.mem_cons_self c cs)
    simp [List.takeWhile_cons, hc,
      ih (fun x hx => h x (List.mem_cons_of_mem c hx))]

lemma takeWhile_middle (p : Char → Bool) (x : Char) (t : List Char)
    (hx : p x = false) :
    ∀ (l : List Char), (∀ c ∈ l, p c = true) →
      (l ++ x :: t).takeWhile p = l ∧ (l ++ x :: t).dropWhile p = x :: t := by
  intro l
  induction l with
  | nil =>
    intro _
    simp [List.takeWhile_cons, List.dropWhile_cons, hx]
  | cons c cs ih =>
    intro h
    have hc : p c = true := h c (List.mem_cons_self c cs)
    have ihr := ih (fun y hy => h y (List.mem_cons_of_mem c hy))
    simp only [List.cons_append, List.takeWhile_cons, List.dropWhile_cons, hc,
      ihr.1, ihr.2]
    exact ⟨rfl, rfl⟩

lemma mem_of_mem_takeWhile (p : Char → Bool) :
    ∀ (l : List Char) (c : Char), c ∈ l.takeWhile p → p c = true := by
  intro l
  induction l with
  | nil => intro c hc; simp [List.takeWhile] at hc
  | cons a as ih =>
    intro c hc
    by_cases ha : p a = true
    · simp only [List.takeWhile_cons, ha, if_true, List.mem_cons] at hc
      rcases hc with rfl | hc
      · exact ha
      · exact ih c hc
    · simp only [List.takeWhile_cons] at hc
      rw [Bool.not_eq_true] at ha
      rw [ha] at hc
      simp at hc

lemma matchAt_of_form (o rp : List Char) (ho : o ≠ []) (hrp : rp ≠ [])
    (hoall : ∀ c ∈ o, c ≠ '/') (hrpall : ∀ c ∈ rp, c ≠ '/') :
    matchAt (githubLit ++ (o ++ '/' :: rp)) = some ⟨String.mk o, String.mk rp⟩ := by
  have hpre : githubLit.isPrefixOf (githubLit ++ (o ++ '/' :: rp)) = true :=
    (isPrefixOf_iff_exists githubLit _).mpr ⟨o ++ '/' :: rp, rfl⟩
  have hmid := takeWhile_middle (fun c => decide (c ≠ '/')) '/' rp (by simp) o
    (fun c hc => by
      simp only [decide_eq_true_eq]
      intro hce
      exact hoall c hc hce)
  have hall := takeWhile_all (fun c => decide (c ≠ '/')) rp
    (fun c hc => by
      simp only [decide_eq_true_eq]
      intro hce
      exact hrpall c hc hce)
  simp only [matchAt]
  rw [if_pos hpre, List.drop_left, hmid.1, hmid.2, if_neg ho]
  split
  case h_1 rest2 heq =>
    obtain rfl : rp = rest2 := by
      injection heq
    rw [hall, if_neg hrp]
  case h_2 hne =>
    exact absurd rfl (hne rp)

lemma matchAt_some_decomp (s : List Char) (ri : RepoInfo)
    (h : matchAt s = some ri) :
    ∃ o c post, s = githubLit ++ o ++ '/' :: c :: post ∧ o ≠ [] ∧
      (∀ x ∈ o, x ≠ '/') ∧ c ≠ '/' := by
  by_cases hpre : githubLit.isPrefixOf s = true
  case neg =>
    simp only [matchAt] at h
    rw [if_neg hpre] at h
    exact absurd h (by simp)
  obtain ⟨t, rfl⟩ := (isPrefixOf_iff_exists githubLit s).mp hpre
  simp only [matchAt] at h
  rw [if_pos hpre, List.drop_left] at h
  by_cases howner : t.takeWhile (fun c => decide (c ≠ '/')) = []
  · rw [if_pos howner] at h
    exact absurd h (by simp)
  · rw [if_neg howner] at h
    split at h
    rotate_left
    next =>
      exact absurd h (by simp)
    next rest2 heq =>
      by_cases hrepo : rest2.takeWhile (fun c => decide (c ≠ '/')) = []
      · rw [if_pos hrepo] at h
        exact absurd h (by simp)
      · have ht : t = (t.takeWhile (fun c => decide (c ≠ '/'))) ++ '/' :: rest2 := by
          rw [← heq, List.takeWhile_append_dropWhile]
        cases hr2 : rest2 with
        | nil =>
          rw [hr2] at hrepo
          simp [List.takeWhile] at hrepo
        | cons c post =>
          have hpc : (decide (c ≠ '/')) = true := by
            by_contra hpc
            rw [Bool.not_eq_true] at hpc
            rw [hr2] at hrepo
            simp only [List.takeWhile_cons, hpc] at hrepo
            simp at hrepo
          refine ⟨t.takeWhile (fun c => decide (c ≠ '/')), c, post, ?_, howner, ?_, ?_⟩
          · rw [List.append_assoc, ← hr2]
            exact congrArg (githubLit ++ .) ht
          · intro x hx
            have := mem_of_mem_takeWhile (fun c => decide (c ≠ '/')) t x hx
            simpa using this
          · simpa using hpc

lemma findMatch_of_matchAt (s : List Char) (ri : RepoInfo)
    (h : matchAt s = some ri) : findMatch s = some ri := by
  cases s with
  | nil =>
    rw [show matchAt [] = none from rfl] at h
    exact absurd h (by simp)
  | cons c cs =>
    simp [findMatch, h]

lemma findMatch_some_decomp :
    ∀ (s : List Char) (ri : RepoInfo), findMatch s = some ri →
      ∃ pre o c post, s = pre ++ githubLit ++ o ++ '/' :: c :: post ∧ o ≠ [] ∧
        (∀ x ∈ o, x ≠ '/') ∧ c ≠ '/' := by
  intro s
  induction s with
  | nil =>
    intro ri h
    simp [findMatch] at h
  | cons a as ih =>
    intro ri h
    simp only [findMatch] at h
    cases hm : matchAt (a :: as) with
    | some r =>
      obtain ⟨o, c, post, heq, ho, hoall, hc⟩ := matchAt_some_decomp _ _ hm
      exact ⟨[], o, c, post, by simpa using heq, ho, hoall, hc⟩
    | none =>
      rw [hm] at h
      obtain ⟨pre, o, c, post, heq, ho, hoall, hc⟩ := ih ri h
      refine ⟨a :: pre, o, c, post, ?_, ho, hoall, hc⟩
      rw [heq]
      simp

/-- C3 counterexample: the regex is not anchored, so a string that is NOT of
the exact form `https://github.com/{owner}/{repo}` with slash-free owner and
repo (here the trailing `/c` makes the repo segment contain a slash) still
resolves to `some`, where the claim requires the failure sentinel. -/
theorem parseGithubUrl_counterexample :
    parseGithubUrl ("https://github.com/a/b/c") = some ⟨"a", "b"⟩ ∧
    ¬ ∃ o r : String, ('/' ∉ o.data) ∧ ('/' ∉ r.data) ∧
      ("https://github.com/a/b/c" : String) =
        "https://github.com/" ++ o ++ "/" ++ r := by
  constructor
  · decide
  · rintro ⟨o, r, ho, hr, heq⟩
    have hdata : ("https://github.com/a/b/c" : String).data =
        githubLit ++ (o.data ++ '/' :: r.data) := by
      rw [heq]
      simp [String.data_append, githubLit]
    have hlit : ("https://github.com/a/b/c" : String).data =
        githubLit ++ (['a', '/', 'b', '/', 'c'] : List Char) := by decide
    have h2 : o.data ++ '/' :: r.data = ['a', '/', 'b', '/', 'c'] :=
      List.append_cancel_left (hdata.symm.trans hlit)
    have hmid := takeWhile_middle (fun c => decide (c ≠ '/')) '/' r.data (by simp)
      o.data (fun c hc => by
        simp only [decide_eq_true_eq]
        rintro rfl
        exact ho hc)
    have hd := hmid.2
    rw [h2] at hd
    have hdv : (['a', '/', 'b', '/', 'c'] : List Char).dropWhile
        (fun c => decide (c ≠ '/')) = ['/', 'b', '/', 'c'] := by decide
    have hrd : '/' :: r.data = ['/', 'b', '/', 'c'] := hd.symm.trans hdv
    have : r.data = ['b', '/', 'c'] := by
      simpa using hrd
    apply hr
    rw [this]
    decide

/-- C3 amended: for every URL of the exact form
`https://github.com/{owner}/{repo}` with owner and repo NONEMPTY and
containing no `/`, the resolver returns exactly that owner and repo; and for
every string that nowhere contains the (unanchored) pattern — the literal
`https://github.com/` followed by a nonempty slash-free run, a `/`, and at
least one further non-slash character — it returns the failure sentinel
`none`. -/
theorem parseGithubUrl_spec :
    (∀ o r : String, o.data ≠ [] → r.data ≠ [] → '/' ∉ o.data → '/' ∉ r.data →
      parseGithubUrl ("https://github.com/" ++ o ++ "/" ++ r) = some ⟨o, r⟩) ∧
    (∀ url : String, ¬ hasGithubPattern url → parseGithubUrl url = none) := by
  constructor
  · intro o r ho hr hos hrs
    unfold parseGithubUrl
    have hdata : ("https://github.com/" ++ o ++ "/" ++ r).data =
        githubLit ++ (o.data ++ '/' :: r.data) := by
      simp [String.data_append, githubLit]
    rw [hdata]
    have hm := matchAt_of_form o.data r.data ho hr
      (fun c hc hce => hos (hce ▸ hc)) (fun c hc hce => hrs (hce ▸ hc))
    rw [findMatch_of_matchAt _ _ hm]
  · intro url hnp
    cases hp : parseGithubUrl url with
    | none => rfl
    | some ri =>
      exfalso
      obtain ⟨pre, o, c, post, heq, ho, hoall, hc⟩ :=
        findMatch_some_decomp url.data ri hp
      exact hnp ⟨pre, o, c, post, heq, ho, hoall, hc⟩

/-- Witness for C3 (amended): a well-formed URL resolves to its owner and
repo; a string without the pattern resolves to `none`. -/
theorem parseGithubUrl_spec_witness :
    parseGithubUrl ("https://github.com/" ++ "octocat" ++ "/" ++ "Hello-World") =
      some ⟨"octocat", "Hello-World"⟩ ∧
    parseGithubUrl ("not-a-url") = none := by
  constructor
  · exact parseGithubUrl_spec.1 ("octocat") ("Hello-World") (by decide) (by decide)
      (by decide) (by decide)
  · refine parseGithubUrl_spec.2 ("not-a-url") ?_
    rintro ⟨pre, o, c, post, heq, ho, hoall, hc⟩
    have h9 : ("not-a-url" : String).data.length = 9 := rfl
    have h19 : githubLit.length = 19 := rfl
    have hlen := congrArg List.length heq
    rw [h9] at hlen
    simp only [List.length_append, List.length_cons, h19] at hlen
    omega

/-- Modelled from the spec: the timer wrapper (src/function-timer is not in
the repository snapshot) pairs a computation's output with its non-negative
elapsed wall-clock seconds; it never alters the output and propagates
failures unchanged, so a timed step is modelled as the step's `Except` value
paired, on success, with a clock reading. -/
structure TimedResult (α : Type) where
  output : α
  time : ℚ
deriving Repr

/-- The environment of external collaborators the pipeline consumes.
`getGithubLink` is the npm-to-GitHub link normalization (Util/npmUtil, not in
the snapshot); the four fetch/calculator fields model the HTTP-backed
calculators (ramp-up, correctness, responsiveness modules and the axios call
of `fetchRepoLicense` are outside the snapshot), returning either a value or
a thrown error; `clock` gives the elapsed seconds of the k-th timed call of
one pipeline run; `fmt` is the JS rendering `Number(x.toPrecision(5))` of a
numeric value into the report, modelled abstractly because it is
floating-point formatting. -/
structure Env where
  getGithubLink : String → String
  fetchContributors : String → String → Except String (List Contributor)
  calculateRampUp : String → String → Except String ℚ
  axiosGetLicense : String → String → Except String String
  calculateCorrectness : String → String → Except String ℚ
  calculateResponsiveMaintener : String → String → Except String ℚ
  clock : Nat → ℚ
  fmt : ℚ → String

/-- Mirrors `fetchRepoLicense(owner, repo)`: forwards the axios result and,
on failure, logs and rethrows the same error. -/
def fetchRepoLicense (env : Env) (owner repo : String) : Except String String :=
  match env.axiosGetLicense owner repo with
  | Except.ok response => Except.ok response
  | Except.error e => Except.error e

/-- Modelled from the spec: the net-score aggregator (src/netscore is not in
the repository snapshot).  Per §4.5 it is a fixed linear weighting of the
four component scores with constant non-negative weights summing to 1; the
exact policy constants are not given, so the model fixes them at 1/4 each,
which satisfies every constraint the spec states. -/
def calculateNetScore (busFactor rampUp correctness responsiveness : ℚ) : ℚ :=
  (1 / 4) * busFactor + (1 / 4) * rampUp + (1 / 4) * correctness +
    (1 / 4) * responsiveness

/-- The template literal of `calculateMetricsForRepo`, verbatim: a
brace-delimited record whose thirteen fields each sit on their own line
(the template contains literal newlines and four-space indents; most field
lines end with a comma and a trailing space; `URL`, `NetScore` and `License`
values are quoted). -/
def reportString (url ns nsL ru ruL corr corrL bf bfL resp respL lic licL :
    String) : String :=
  "\x7b\n    \"URL\": \"" ++ url ++ "\", \n    \"NetScore\": \"" ++ ns ++
    "\", \n    \"NetScore_Latency\": " ++ nsL ++ ", \n    \"RampUp\": " ++ ru ++
    ", \n    \"RampUp_Latency\": " ++ ruL ++ ", \n    \"Correctness\": " ++ corr ++
    ", \n    \"Correctness_Latency\": " ++ corrL ++ ", \n    \"BusFactor\": " ++ bf ++
    ", \n    \"BusFactor_Latency\": " ++ bfL ++ ", \n    \"ResponsiveMaintainer\": " ++ resp ++
    ", \n    \"ResponsiveMaintainer_Latency\": " ++ respL ++ ", \n    \"License\": \"" ++ lic ++
    "\", \n    \"License_Latency\": " ++ licL ++ "\n\x7d"

/-- The `try` block of `calculateMetricsForRepo`: fetch contributors, then
run the timed calculators in source order (bus factor at threshold 50,
ramp-up, license, correctness, responsiveness, net score) and assemble the
report.  A thrown error at any step aborts the rest of the block and
propagates to the `catch`; this is the `Except.error` short-circuit. -/
def runPipeline (env : Env) (url owner repo : String) : Except String String :=
  match env.fetchContributors owner repo with
  | Except.error e => Except.error e
  | Except.ok contributors =>
    let busFactor : TimedResult ℚ :=
      ⟨((calculateBusFactor contributors 50 : Nat) : ℚ), env.clock 0⟩
    match env.calculateRampUp owner repo with
    | Except.error e => Except.error e
    | Except.ok rampUp =>
      let rampUpScore : TimedResult ℚ := ⟨rampUp, env.clock 1⟩
      match fetchRepoLicense env owner repo with
      | Except.error e => Except.error e
      | Except.ok lic =>
        let retrievedLicense : TimedResult String := ⟨lic, env.clock 2⟩
        match env.calculateCorrectness owner repo with
        | Except.error e => Except.error e
        | Except.ok corr =>
          let correctness : TimedResult ℚ := ⟨corr, env.clock 3⟩
          match env.calculateResponsiveMaintener owner repo with
          | Except.error e => Except.error e
          | Except.ok resp =>
            let maintainResponsiveness : TimedResult ℚ := ⟨resp, env.clock 4⟩
            let netScore : TimedResult ℚ :=
              ⟨calculateNetScore busFactor.output rampUpScore.output
                correctness.output maintainResponsiveness.output, env.clock 5⟩
            Except.ok (reportString url (env.fmt netScore.output)
              (env.fmt netScore.time) (env.fmt rampUpScore.output)
              (env.fmt rampUpScore.time) (env.fmt correctness.output)
              (env.fmt correctness.time) (env.fmt busFactor.output)
              (env.fmt busFactor.time) (env.fmt maintainResponsiveness.output)
              (env.fmt maintainResponsiveness.time) retrievedLicense.output
              (env.fmt retrievedLicense.time))

/-- Mirrors `calculateMetricsForRepo(url)`: normalize the link, parse it,
return `Invalid URL: ...` when parsing fails, otherwise run the pipeline and
turn a thrown error into the per-repository error string. -/
def calculateMetricsForRepo (env : Env) (url : String) : String :=
  let githubUrl := env.getGithubLink url
  match parseGithubUrl githubUrl with
  | none => "Invalid URL: " ++ githubUrl
  | some repoInfo =>
    match runPipeline env url repoInfo.owner repoInfo.repo with
    | Except.ok result => result
    | Except.error e =>
      "Error calculating Metrics for " ++ repoInfo.owner ++ "/" ++
        repoInfo.repo ++ ": " ++ e

/-- The `for` loop of `parseUrlFile`: process the URLs in order, appending
each result plus a newline to the NDJSON file before the next URL is
processed.  `ndjson` is the file content at loop entry. -/
def parseUrlFileContentLoop (env : Env) : List String → String → String
  | [], ndjson => ndjson
  | githubUrl :: rest, ndjson =>
    parseUrlFileContentLoop env rest
      (ndjson ++ calculateMetricsForRepo env githubUrl ++ "\n")

/-- Mirrors `parseUrlFile(filepath)`: split the input file on newlines,
drop blank lines (`.filter(Boolean)`), start from an empty NDJSON file and
run the sequential loop.  The result is the final content of the output
file. -/
def parseUrlFile (env : Env) (content : String) : String :=
  parseUrlFileContentLoop env
    ((content.splitOn ("\n")).filter (fun line => line ≠ "")) ""

/-- Some step inside the `try` block throws: either the contributors fetch
fails, or it succeeds and a later calculator/fetch in source order is the
first to fail, with error `e`. -/
def pipelineThrows (env : Env) (owner repo e : String) : Prop :=
  env.fetchContributors owner repo = Except.error e ∨
  (∃ cs, env.fetchContributors owner repo = Except.ok cs ∧
    env.calculateRampUp owner repo = Except.error e) ∨
  (∃ cs q1, env.fetchContributors owner repo = Except.ok cs ∧
    env.calculateRampUp owner repo = Except.ok q1 ∧
    env.axiosGetLicense owner repo = Except.error e) ∨
  (∃ cs q1 lic, env.fetchContributors owner repo = Except.ok cs ∧
    env.calculateRampUp owner repo = Except.ok q1 ∧
    env.axiosGetLicense owner repo = Except.ok lic ∧
    env.calculateCorrectness owner repo = Except.error e) ∨
  (∃ cs q1 lic q2, env.fetchContributors owner repo = Except.ok cs ∧
    env.calculateRampUp owner repo = Except.ok q1 ∧
    env.axiosGetLicense owner repo = Except.ok lic ∧
    env.calculateCorrectness owner repo = Except.ok q2 ∧
    env.calculateResponsiveMaintener owner repo = Except.error e)

lemma runPipeline_error (env : Env) (url owner repo e : String)
    (hthrow : pipelineThrows env owner repo e) :
    runPipeline env url owner repo = Except.error e := by
  rcases hthrow with h1 | ⟨cs, hcs, h1⟩ | ⟨cs, q1, hcs, hq1, h1⟩ |
    ⟨cs, q1, lic, hcs, hq1, hlic, h1⟩ | ⟨cs, q1, lic, q2, hcs, hq1, hlic, hq2, h1⟩
  · simp only [runPipeline, h1]
  · simp only [runPipeline, hcs, h1]
  · simp only [runPipeline, hcs, hq1, fetchRepoLicense, h1]
  · simp only [runPipeline, hcs, hq1, fetchRepoLicense, hlic, h1]
  · simp only [runPipeline, hcs, hq1, fetchRepoLicense, hlic, hq2, h1]

/-- C6: when any fetch or calculator in a repository's pipeline throws, the
repository resolves to the single error string naming its owner and repo —
the exact `catch` string, with none of the Report fields — and the batch loop
appends that line and moves on to the remaining URLs. -/
theorem metrics_error_at_repo_granularity (env : Env) (url owner repo e : String)
    (hparse : parseGithubUrl (env.getGithubLink url) = some ⟨owner, repo⟩)
    (hthrow : pipelineThrows env owner repo e) :
    calculateMetricsForRepo env url =
      "Error calculating Metrics for " ++ owner ++ "/" ++ repo ++ ": " ++ e ∧
    ∀ rest ndjson, parseUrlFileContentLoop env (url :: rest) ndjson =
      parseUrlFileContentLoop env rest
        (ndjson ++ ("Error calculating Metrics for " ++ owner ++ "/" ++ repo ++
          ": " ++ e) ++ "\n") := by
  have herr := runPipeline_error env url owner repo e hthrow
  have hres : calculateMetricsForRepo env url =
      "Error calculating Metrics for " ++ owner ++ "/" ++ repo ++ ": " ++ e := by
    simp only [calculateMetricsForRepo, hparse, herr]
  refine ⟨hres, ?_⟩
  intro rest ndjson
  simp only [parseUrlFileContentLoop, hres]

/-- C7: when the resolver fails on (the normalized form of) an input URL, the
repository resolves — without any exception — to the `Invalid URL` error
string, and the batch loop appends that line and continues with the remaining
URLs. -/
theorem metrics_invalid_url (env : Env) (url : String)
    (hparse : parseGithubUrl (env.getGithubLink url) = none) :
    calculateMetricsForRepo env url = "Invalid URL: " ++ env.getGithubLink url ∧
    (∃ suffix, calculateMetricsForRepo env url = "Invalid URL" ++ suffix) ∧
    ∀ rest ndjson, parseUrlFileContentLoop env (url :: rest) ndjson =
      parseUrlFileContentLoop env rest
        (ndjson ++ ("Invalid URL: " ++ env.getGithubLink url) ++ "\n") := by
  have hres : calculateMetricsForRepo env url =
      "Invalid URL: " ++ env.getGithubLink url := by
    simp only [calculateMetricsForRepo, hparse]
  refine ⟨hres, ⟨": " ++ env.getGithubLink url, ?_⟩, ?_⟩
  · rw [hres]
    rw [show ("Invalid URL: " : String) = "Invalid URL" ++ ": " from rfl]
    exact String.append_assoc _ _ _
  · intro rest ndjson
    simp only [parseUrlFileContentLoop, hres]

/-- A concrete all-success environment: identity link normalization, two
contributors (90 and 10 commits), every calculator succeeding, constant
formatting. -/
def demoEnv : Env where
  getGithubLink := fun url => url
  fetchContributors := fun _ _ => Except.ok [⟨"a", 90⟩, ⟨"b", 10⟩]
  calculateRampUp := fun _ _ => Except.ok (1 / 2)
  axiosGetLicense := fun _ _ => Except.ok ("MIT License")
  calculateCorrectness := fun _ _ => Except.ok (1 / 2)
  calculateResponsiveMaintener := fun _ _ => Except.ok (1 / 2)
  clock := fun _ => 0
  fmt := fun _ => "0.5"

/-- A concrete environment whose contributors fetch throws (simulated 500
response); all later calculators would succeed. -/
def envThrow : Env where
  getGithubLink := fun url => url
  fetchContributors := fun _ _ => Except.error ("Request failed with status code 500")
  calculateRampUp := fun _ _ => Except.ok (1 / 2)
  axiosGetLicense := fun _ _ => Except.ok ("MIT License")
  calculateCorrectness := fun _ _ => Except.ok (1 / 2)
  calculateResponsiveMaintener := fun _ _ => Except.ok (1 / 2)
  clock := fun _ => 0
  fmt := fun _ => "0.5"

/-- Witness for C6: with a throwing contributors fetch, the line for the URL
is exactly the error string naming octocat/Hello-World. -/
theorem metrics_error_at_repo_granularity_witness :
    parseGithubUrl (envThrow.getGithubLink ("https://github.com/octocat/Hello-World")) =
      some ⟨"octocat", "Hello-World"⟩ ∧
    pipelineThrows envThrow ("octocat") ("Hello-World")
      ("Request failed with status code 500") ∧
    calculateMetricsForRepo envThrow ("https://github.com/octocat/Hello-World") =
      "Error calculating Metrics for " ++ "octocat" ++ "/" ++ "Hello-World" ++
        ": " ++ "Request failed with status code 500" := by
  have hthrow : pipelineThrows envThrow ("octocat") ("Hello-World")
      ("Request failed with status code 500") := by
    unfold pipelineThrows
    exact Or.inl rfl
  refine ⟨by decide, hthrow, ?_⟩
  exact (metrics_error_at_repo_granularity envThrow
    ("https://github.com/octocat/Hello-World") ("octocat") ("Hello-World")
    ("Request failed with status code 500") (by decide) hthrow).1

/-- Witness for C7: the malformed line `not-a-url` yields the `Invalid URL`
error string. -/
theorem metrics_invalid_url_witness :
    parseGithubUrl (demoEnv.getGithubLink ("not-a-url")) = none ∧
    calculateMetricsForRepo demoEnv ("not-a-url") =
      "Invalid URL: " ++ "not-a-url" := by
  refine ⟨by decide, ?_⟩
  exact (metrics_invalid_url demoEnv ("not-a-url") (by decide)).1

/-- The expected NDJSON content for a list of URLs: one record per URL, in
input order, each followed by the newline the loop appends. -/
def ndjsonOf (env : Env) : List String → String
  | [] => ""
  | u :: rest => calculateMetricsForRepo env u ++ "\n" ++ ndjsonOf env rest

lemma parseUrlFileContentLoop_eq (env : Env) :
    ∀ (pending : List String) (acc : String),
      parseUrlFileContentLoop env pending acc = acc ++ ndjsonOf env pending := by
  intro pending
  induction pending with
  | nil =>
    intro acc
    simp [parseUrlFileContentLoop, ndjsonOf]
  | cons u rest ih =>
    intro acc
    simp only [parseUrlFileContentLoop, ndjsonOf, ih]
    simp [String.append_assoc]

lemma ndjsonOf_append (env : Env) (l1 l2 : List String) :
    ndjsonOf env (l1 ++ l2) = ndjsonOf env l1 ++ ndjsonOf env l2 := by
  induction l1 with
  | nil => simp [ndjsonOf]
  | cons u rest ih =>
    simp only [List.cons_append, ndjsonOf, List.append_eq]
    rw [ih]
    simp [String.append_assoc]

/-- C8: batch processing is strictly sequential — at the moment the loop
turns to the pending suffix of the URL list, the output file holds exactly
the completed records of the already-processed prefix, in input order — and
the final file content is one record per input URL, in input order. -/
theorem parseUrlFile_sequential (env : Env) (processed pending : List String) :
    parseUrlFileContentLoop env pending (ndjsonOf env processed) =
      ndjsonOf env (processed ++ pending) ∧
    ∀ content : String,
      parseUrlFile env content =
        ndjsonOf env ((content.splitOn ("\n")).filter (fun line => line ≠ "")) := by
  constructor
  · rw [parseUrlFileContentLoop_eq, ndjsonOf_append]
  · intro content
    unfold parseUrlFile
    rw [parseUrlFileContentLoop_eq]
    rfl

set_option maxRecDepth 4000 in
/-- C9 (code bug): on a successful run the record emitted for the URL is the
pretty-printed multi-line template — it contains 14 newline characters —
although the output file is the `.NDJSON` sibling and one single-line record
per URL is required. -/
theorem report_is_multiline :
    (calculateMetricsForRepo demoEnv
      ("https://github.com/octocat/Hello-World")).data.count '\n' = 14 := by
  decide

/-- C1 (net-score aggregator modelled from the spec): for any four component
scores within [0,1] the weighted composite lies within [0,1]. -/
theorem netScore_in_unit_interval (b r c m : ℚ)
    (hb0 : 0 ≤ b) (hb1 : b ≤ 1) (hr0 : 0 ≤ r) (hr1 : r ≤ 1)
    (hc0 : 0 ≤ c) (hc1 : c ≤ 1) (hm0 : 0 ≤ m) (hm1 : m ≤ 1) :
    0 ≤ calculateNetScore b r c m ∧ calculateNetScore b r c m ≤ 1 := by
  unfold calculateNetScore
  constructor <;> linarith

/-- Witness for C1 at scores 1, 0, 1, 0. -/
theorem netScore_in_unit_interval_witness :
    0 ≤ (1 : ℚ) ∧ (1 : ℚ) ≤ 1 ∧ 0 ≤ (0 : ℚ) ∧ (0 : ℚ) ≤ 1 ∧
    0 ≤ calculateNetScore 1 0 1 0 ∧ calculateNetScore 1 0 1 0 ≤ 1 := by
  have h := netScore_in_unit_interval 1 0 1 0 (by norm_num) (by norm_num)
    (by norm_num) (by norm_num) (by norm_num) (by norm_num) (by norm_num)
    (by norm_num)
  exact ⟨by norm_num, by norm_num, by norm_num, by norm_num, h.1, h.2⟩

end CLIModel
